import Mathlib

/-! Shallow embedding of the ttf-parser decoding core (`src/parser.rs`, `src/loca.rs`).

Buffers are modelled as `List Nat` (each entry a byte value < 256, stated as a
hypothesis where a claim needs it).  `usize` arithmetic is modelled on `Nat`
(no quantity in the embedded code can reach 2^64); the two `as u32` casts that
occur in the source (`Stream::read_array`, `LazyArray::binary_search_by`) are
modelled explicitly as `% 2^32`.  `f32` values produced by the fixed-point
decoders are modelled as rationals.
-/

namespace TtfParser

/-- Parsing errors (`Error` in the crate root).  The claims only concern the
`SliceOutOfBounds` variant, the boundary failure raised by the
bounds-checked reader. -/
inductive Error where
  | SliceOutOfBounds
deriving DecidableEq

/-- The fixed-size-value codec contract (`trait FromData`): a wire byte width
(`SIZE`) and a total parse function (`parse`), which in the source is always
applied to a slice of exactly `SIZE` bytes. -/
structure FromData (α : Type) where
  SIZE : Nat
  parse : List Nat → α

/-- Big-endian 16-bit word from the first two bytes
(`u16::from_be_bytes([data[0], data[1]])`). -/
def be16 (data : List Nat) : Nat :=
  data.getD 0 0 * 256 + data.getD 1 0

/-- Big-endian 32-bit word from the first four bytes (`u32::from_be_bytes`). -/
def be32 (data : List Nat) : Nat :=
  ((data.getD 0 0 * 256 + data.getD 1 0) * 256 + data.getD 2 0) * 256 + data.getD 3 0

/-- Two's-complement reinterpretation of an unsigned `w`-bit word, the
semantics of `iN::from_be_bytes` given the unsigned word value. -/
def toSigned (w : Nat) (n : Nat) : Int :=
  if n < 2 ^ (w - 1) then (n : Int) else (n : Int) - 2 ^ w

/-- Rust `impl FromData for u8`. -/
def fdU8 : FromData Nat := ⟨1, fun d => d.getD 0 0⟩

/-- Rust `impl FromData for u16`. -/
def fdU16 : FromData Nat := ⟨2, fun d => be16 d⟩

/-- Rust `impl FromData for i16`. -/
def fdI16 : FromData Int := ⟨2, fun d => toSigned 16 (be16 d)⟩

/-- Rust `impl FromData for u32`. -/
def fdU32 : FromData Nat := ⟨4, fun d => be32 d⟩

/-- Rust `impl FromData for i32`. -/
def fdI32 : FromData Int := ⟨4, fun d => toSigned 32 (be32 d)⟩

/-- Rust `impl FromData for F2DOT14`: `i16::parse(data) as f32 / 16384.0`.
The `f32` result is modelled as a rational; an `i16` converts to `f32`
exactly and dividing by the power of two 16384 is exact in `f32`, so the
rational model is faithful for this type. -/
def fdF2DOT14 : FromData ℚ := ⟨2, fun d => (toSigned 16 (be16 d) : ℚ) / 16384⟩

/-- Rust `impl FromData for Fixed`: `i32::parse(data) as f32 / 65536.0`, with the
`f32` value modelled as a rational (the idealised value before `f32`
rounding of the `i32 as f32` conversion). -/
def fdFixed : FromData ℚ := ⟨4, fun d => (toSigned 32 (be32 d) : ℚ) / 65536⟩

/-- Rust `data[start..stop]` as a list (the callee-visible bytes of a slice). -/
def slice (data : List Nat) (start stop : Nat) : List Nat :=
  (data.drop start).take (stop - start)

/-- Rust `impl TrySlice for &[u8]`:
`self.get(range).ok_or(Error::SliceOutOfBounds)`.  Rust's `<[u8]>::get` on a
`Range` returns `Some` exactly when `start ≤ stop` and `stop ≤ len`. -/
def trySlice (data : List Nat) (start stop : Nat) : Except Error (List Nat) :=
  if start ≤ stop ∧ stop ≤ data.length then .ok (slice data start stop)
  else .error .SliceOutOfBounds

/-- Rust `2^32`: on a 64-bit target, `x as u32` is `x % U32LIM`. -/
def U32LIM : Nat := 4294967296

/-- The bounds-checked cursor reader (`struct Stream`). -/
structure Stream where
  data : List Nat
  offset : Nat
deriving DecidableEq

/-- Rust `Stream::new`. -/
def Stream.new (data : List Nat) : Stream := ⟨data, 0⟩

/-- Rust `Stream::new_at`. -/
def Stream.new_at (data : List Nat) (offset : Nat) : Stream := ⟨data, offset⟩

/-- Rust `Stream::read::<T>`: advance the cursor by `T::SIZE` and decode the
checked slice `[offset, offset + T::SIZE)`. -/
def Stream.read {α : Type} (fd : FromData α) (s : Stream) :
    Except Error (α × Stream) :=
  match trySlice s.data s.offset (s.offset + fd.SIZE) with
  | .ok bytes => .ok (fd.parse bytes, ⟨s.data, s.offset + fd.SIZE⟩)
  | .error e => .error e

/-- Rust `Stream::read_bytes`: advance the cursor by `len` and return the checked
slice `[offset, offset + len)`. -/
def Stream.read_bytes (s : Stream) (len : Nat) :
    Except Error (List Nat × Stream) :=
  match trySlice s.data s.offset (s.offset + len) with
  | .ok bytes => .ok (bytes, ⟨s.data, s.offset + len⟩)
  | .error e => .error e

/-- Rust `Stream::read_at::<T>`: stateless read of `T` at `offset` in `data`. -/
def Stream.read_at {α : Type} (fd : FromData α) (data : List Nat)
    (offset : Nat) : Except Error α :=
  match trySlice data offset (offset + fd.SIZE) with
  | .ok bytes => .ok (fd.parse bytes)
  | .error e => .error e

/-- The lazy array view (`struct LazyArray`); the element type is carried by
the `FromData` codec passed to each operation. -/
structure LazyArray where
  data : List Nat
deriving DecidableEq

/-- Rust `LazyArray::new`. -/
def LazyArray.new (data : List Nat) : LazyArray := ⟨data⟩

/-- Rust `LazyArray::len`: `self.data.len() / T::SIZE`. -/
def LazyArray.len {α : Type} (fd : FromData α) (la : LazyArray) : Nat :=
  la.data.length / fd.SIZE

/-- Rust `LazyArray::at` (unchecked indexed decode; `at` is a Lean keyword, hence
the primed name): parse `data[index * SIZE .. index * SIZE + SIZE]`. -/
def LazyArray.at' {α : Type} (fd : FromData α) (la : LazyArray) (index : Nat) : α :=
  fd.parse (slice la.data (index * fd.SIZE) (index * fd.SIZE + fd.SIZE))

/-- Rust `LazyArray::get` (checked indexed decode). -/
def LazyArray.get {α : Type} (fd : FromData α) (la : LazyArray) (index : Nat) :
    Option α :=
  if index < la.len fd then
    some (fd.parse (slice la.data (index * fd.SIZE) (index * fd.SIZE + fd.SIZE)))
  else
    none

/-- The loop of `LazyArray::binary_search_by` (`while size > 1 { ... }`),
with an explicit fuel argument so that the recursion is structural and the
kernel can evaluate it.  `size` strictly shrinks by at least one each
iteration, so `fuel := size` suffices and never runs out
(`bsearchLoop_eq` below shows the fuel is invisible: `bsearchLoop`
satisfies exactly the loop's recurrence). -/
def bsearchLoopFuel (probe : Nat → Ordering) : Nat → Nat → Nat → Nat
  | 0, base, _ => base
  | fuel + 1, base, size =>
    if 1 < size then
      bsearchLoopFuel probe fuel
        (if probe (base + size / 2) = .gt then base else base + size / 2)
        (size - size / 2)
    else base

/-- The loop of `binary_search_by`: starting from `base` and span `size`,
while `size > 1`, probe `mid = base + size / 2` and keep the half whose
boundary element compares not-greater; returns the final `base`. -/
def bsearchLoop (probe : Nat → Ordering) (base size : Nat) : Nat :=
  bsearchLoopFuel probe size base size

/-- The indices `mid` probed (via `at`) by the loop of `binary_search_by`,
in probe order; the final candidate `base` is not included. -/
def bsearchProbesFuel (probe : Nat → Ordering) : Nat → Nat → Nat → List Nat
  | 0, _, _ => []
  | fuel + 1, base, size =>
    if 1 < size then
      (base + size / 2) ::
        bsearchProbesFuel probe fuel
          (if probe (base + size / 2) = .gt then base else base + size / 2)
          (size - size / 2)
    else []

/-- The probe trace of the loop of `binary_search_by`. -/
def bsearchProbes (probe : Nat → Ordering) (base size : Nat) : List Nat :=
  bsearchProbesFuel probe size base size

/-- Rust `LazyArray::binary_search_by`.  The source initialises
`let mut size = self.len() as u32`, modelled as `% U32LIM`. -/
def LazyArray.binary_search_by {α : Type} (fd : FromData α) (la : LazyArray)
    (f : α → Ordering) : Option α :=
  let size := la.len fd % U32LIM
  if size = 0 then none
  else
    let base := bsearchLoop (fun m => f (la.at' fd m)) 0 size
    let value := la.at' fd base
    if f value = .eq then some value else none

/-- Rust `LazyArray::binary_search` for `Nat`-valued elements (`u16`/`u32`):
`self.binary_search_by(|p| p.cmp(x))`. -/
def LazyArray.binary_search (fd : FromData Nat) (la : LazyArray) (x : Nat) :
    Option Nat :=
  la.binary_search_by fd (fun p => compare p x)

/-- Rust `Stream::read_array::<T>(len)`: the byte count is
`len.to_usize() * T::SIZE` cast `as u32` before being handed to
`read_bytes`, modelled as `% U32LIM`. -/
def Stream.read_array {α : Type} (fd : FromData α) (s : Stream) (len : Nat) :
    Except Error (LazyArray × Stream) :=
  match s.read_bytes (len * fd.SIZE % U32LIM) with
  | .ok (bytes, s') => .ok (LazyArray.new bytes, s')
  | .error e => .error e

/-- Rust `Stream::read_array16::<T>`: read a big-endian `u16` count, then the body. -/
def Stream.read_array16 {α : Type} (fd : FromData α) (s : Stream) :
    Except Error (LazyArray × Stream) :=
  match Stream.read fdU16 s with
  | .ok (count, s') => s'.read_array fd count
  | .error e => .error e

/-- Rust `Stream::read_array32::<T>`: read a big-endian `u32` count, then the body. -/
def Stream.read_array32 {α : Type} (fd : FromData α) (s : Stream) :
    Except Error (LazyArray × Stream) :=
  match Stream.read fdU32 s with
  | .ok (count, s') => s'.read_array fd count
  | .error e => .error e

/-- The trusted cursor reader (`struct SafeStream`). -/
structure SafeStream where
  data : List Nat
  offset : Nat
deriving DecidableEq

/-- Rust `SafeStream::new`. -/
def SafeStream.new (data : List Nat) : SafeStream := ⟨data, 0⟩

/-- Rust `SafeStream::read_bytes`: unchecked slicing
`&self.data[offset..offset + len]`.  In Rust this panics when out of bounds;
it is reachable only after a successful bounds check, and every theorem about
it carries that bound as a hypothesis, under which the modelled slice is the
exact sub-slice. -/
def SafeStream.read_bytes (s : SafeStream) (len : Nat) : List Nat × SafeStream :=
  (slice s.data s.offset (s.offset + len), ⟨s.data, s.offset + len⟩)

/-- Rust `SafeStream::read::<T>`: `T::parse(self.read_bytes(T::SIZE as u32))`;
the cast is modelled as `% U32LIM`. -/
def SafeStream.read {α : Type} (fd : FromData α) (s : SafeStream) : α × SafeStream :=
  let r := s.read_bytes (fd.SIZE % U32LIM)
  (fd.parse r.1, r.2)

/-- Rust `head::IndexToLocationFormat`: the offset-width selector of the `loca`
table (short = halved 16-bit entries, long = raw 32-bit entries). -/
inductive IndexToLocationFormat where
  | Short
  | Long
deriving DecidableEq

/-- The inputs `Font::glyph_range` takes from its out-of-scope collaborators:
`self.number_of_glyphs()` (a `u16`), `self.index_to_location_format()`
(a `Result<Option<Format>>`, consumed through `try_ok!`, which propagates
`Err` and turns `Ok(None)` into an `Ok(None)` return), and the `loca` table
slice `self.loca` (a `Result<&[u8]>`, consumed through `?`). -/
structure Font where
  numberOfGlyphs : Nat
  indexToLocationFormat : Except Error (Option IndexToLocationFormat)
  loca : Except Error (List Nat)

/-- The final checks of `Font::glyph_range` on the derived range
(`src/loca.rs` lines 43-52): `start == end` means no outline,
`start > end` violates ascending order; both yield `Ok(None)`. -/
def glyphRangeResult (start stop : Nat) : Except Error (Option (Nat × Nat)) :=
  if start = stop then .ok none
  else if start > stop then .ok none
  else .ok (some (start, stop))

/-- Rust `Font::glyph_range` (`src/loca.rs`).  `u16` arithmetic on
`glyph_id + 1` and `number_of_glyphs + 1` cannot wrap because both values
were already checked against `u16::MAX`, so plain `Nat` arithmetic is
faithful once the callers' values are below `2^16`. -/
def glyph_range (font : Font) (glyphId : Nat) : Except Error (Option (Nat × Nat)) :=
  if font.numberOfGlyphs = 65535 then .ok none
  else if glyphId = 65535 then .ok none
  else
    let total := font.numberOfGlyphs + 1
    if glyphId + 1 ≥ total then .ok none
    else
      match font.indexToLocationFormat with
      | .error e => .error e
      | .ok none => .ok none
      | .ok (some format) =>
        match font.loca with
        | .error e => .error e
        | .ok locaData =>
          match format with
          | .Short =>
            match Stream.read_array fdU16 (Stream.new locaData) total with
            | .error e => .error e
            | .ok (array, _) =>
              glyphRangeResult (array.at' fdU16 glyphId * 2)
                (array.at' fdU16 (glyphId + 1) * 2)
          | .Long =>
            match Stream.read_array fdU32 (Stream.new locaData) total with
            | .error e => .error e
            | .ok (array, _) =>
              glyphRangeResult (array.at' fdU32 glyphId)
                (array.at' fdU32 (glyphId + 1))

/-- The worked `loca` example: `glyph_count = 3`, short encoding, offsets
buffer encoding the raw pre-halved `u16` values `[0, 0, 5, 5]` big-endian. -/
def locaShortExample : Font :=
  ⟨3, .ok (some .Short), .ok [0, 0, 0, 0, 0, 5, 0, 5]⟩

/-- A sorted view of `u8` elements with more than `2^32` elements:
`2^32` zeros followed by a single `1`. -/
def bigSorted : LazyArray :=
  LazyArray.new (List.replicate 4294967296 0 ++ [1])

/-! ### The binary-search loop: recurrence, bounds, and search correctness -/

lemma bsearchLoopFuel_congr (probe : Nat → Ordering) :
    ∀ fuel₁ fuel₂ base size, size ≤ fuel₁ → size ≤ fuel₂ →
      bsearchLoopFuel probe fuel₁ base size = bsearchLoopFuel probe fuel₂ base size := by
  intro fuel₁
  induction fuel₁ with
  | zero =>
    intro fuel₂ base size h1 _
    have hz : size = 0 := by omega
    subst hz
    cases fuel₂ <;> simp [bsearchLoopFuel]
  | succ fuel ih =>
    intro fuel₂ base size h1 h2
    match fuel₂, h2 with
    | 0, h2 =>
      have hz : size = 0 := by omega
      subst hz
      simp [bsearchLoopFuel]
    | fuel₂ + 1, h2 =>
      simp only [bsearchLoopFuel]
      split
      · next hs =>
        have hh : 0 < size / 2 := Nat.div_pos (by omega) (by norm_num)
        exact ih fuel₂ _ _ (by omega) (by omega)
      · rfl

/-- Rust `bsearchLoop` satisfies exactly the recurrence of the source loop:
the fuel plumbing is invisible. -/
lemma bsearchLoop_eq (probe : Nat → Ordering) (base size : Nat) :
    bsearchLoop probe base size =
      if 1 < size then
        bsearchLoop probe
          (if probe (base + size / 2) = .gt then base else base + size / 2)
          (size - size / 2)
      else base := by
  unfold bsearchLoop
  cases size with
  | zero => simp [bsearchLoopFuel]
  | succ k =>
    simp only [bsearchLoopFuel]
    split
    · next hs =>
      apply bsearchLoopFuel_congr
      · have hh : 0 < (k + 1) / 2 := Nat.div_pos (by omega) (by norm_num)
        omega
      · omega
    · rfl

lemma bsearchProbesFuel_congr (probe : Nat → Ordering) :
    ∀ fuel₁ fuel₂ base size, size ≤ fuel₁ → size ≤ fuel₂ →
      bsearchProbesFuel probe fuel₁ base size = bsearchProbesFuel probe fuel₂ base size := by
  intro fuel₁
  induction fuel₁ with
  | zero =>
    intro fuel₂ base size h1 _
    have hz : size = 0 := by omega
    subst hz
    cases fuel₂ <;> simp [bsearchProbesFuel]
  | succ fuel ih =>
    intro fuel₂ base size h1 h2
    match fuel₂, h2 with
    | 0, h2 =>
      have hz : size = 0 := by omega
      subst hz
      simp [bsearchProbesFuel]
    | fuel₂ + 1, h2 =>
      simp only [bsearchProbesFuel]
      split
      · next hs =>
        have hh : 0 < size / 2 := Nat.div_pos (by omega) (by norm_num)
        rw [ih fuel₂ _ _ (by omega) (by omega)]
      · rfl

/-- Rust `bsearchProbes` satisfies the probe-trace recurrence of the source loop. -/
lemma bsearchProbes_eq (probe : Nat → Ordering) (base size : Nat) :
    bsearchProbes probe base size =
      if 1 < size then
        (base + size / 2) ::
          bsearchProbes probe
            (if probe (base + size / 2) = .gt then base else base + size / 2)
            (size - size / 2)
      else [] := by
  unfold bsearchProbes
  cases size with
  | zero => simp [bsearchProbesFuel]
  | succ k =>
    simp only [bsearchProbesFuel]
    split
    · next hs =>
      have hh : 0 < (k + 1) / 2 := Nat.div_pos (by omega) (by norm_num)
      congr 1
      apply bsearchProbesFuel_congr
      · omega
      · omega
    · rfl

/-- The loop never leaves the half-open window it was started on:
`base ≤ result < base + size` (for a non-empty window). -/
lemma bsearchLoop_mem (probe : Nat → Ordering) :
    ∀ size base, 0 < size →
      base ≤ bsearchLoop probe base size ∧ bsearchLoop probe base size < base + size := by
  intro size
  induction size using Nat.strong_induction_on with
  | _ size ih =>
    intro base hpos
    rw [bsearchLoop_eq]
    split
    · next hs =>
      have hh : 0 < size / 2 := Nat.div_pos (by omega) (by norm_num)
      by_cases hc : probe (base + size / 2) = .gt
      · rw [if_pos hc]
        have hrec := ih (size - size / 2) (by omega) base (by omega)
        omega
      · rw [if_neg hc]
        have hrec := ih (size - size / 2) (by omega) (base + size / 2) (by omega)
        omega
    · omega

/-- Every index the loop probes lies inside the initial window. -/
lemma bsearchProbes_lt (probe : Nat → Ordering) :
    ∀ size base, ∀ m ∈ bsearchProbes probe base size, m < base + size := by
  intro size
  induction size using Nat.strong_induction_on with
  | _ size ih =>
    intro base m hm
    rw [bsearchProbes_eq] at hm
    split at hm
    · next hs =>
      have hh : 0 < size / 2 := Nat.div_pos (by omega) (by norm_num)
      rcases List.mem_cons.mp hm with hm | hm
      · omega
      · by_cases hc : probe (base + size / 2) = .gt
        · rw [if_pos hc] at hm
          have hrec := ih (size - size / 2) (by omega) base m hm
          omega
        · rw [if_neg hc] at hm
          have hrec := ih (size - size / 2) (by omega) (base + size / 2) m hm
          omega
    · simp at hm

/-- Search correctness of the loop over a sorted element map `el`: if some
index of the window holds the value `x`, the final candidate holds `x`. -/
lemma bsearchLoop_find (el : Nat → Nat) (x n : Nat)
    (hsort : ∀ i j, i ≤ j → j < n → el i ≤ el j) :
    ∀ size base, 0 < size → base + size ≤ n →
      (∃ i, base ≤ i ∧ i < base + size ∧ el i = x) →
      el (bsearchLoop (fun m => compare (el m) x) base size) = x := by
  intro size
  induction size using Nat.strong_induction_on with
  | _ size ih =>
    intro base hpos hle ⟨i, hi1, hi2, hix⟩
    rw [bsearchLoop_eq]
    split
    · next hs =>
      have hh : 0 < size / 2 := Nat.div_pos (by omega) (by norm_num)
      by_cases hc : compare (el (base + size / 2)) x = .gt
      · rw [if_pos hc]
        have hgt : x < el (base + size / 2) := Nat.compare_eq_gt.mp hc
        have him : i < base + size / 2 := by
          by_contra hcon
          have : el (base + size / 2) ≤ el i :=
            hsort (base + size / 2) i (by omega) (by omega)
          omega
        exact ih (size - size / 2) (by omega) base (by omega) (by omega)
          ⟨i, hi1, by omega, hix⟩
      · rw [if_neg hc]
        have hle2 : el (base + size / 2) ≤ x := by
          rcases Nat.lt_or_ge x (el (base + size / 2)) with h | h
          · exact absurd (Nat.compare_eq_gt.mpr h) hc
          · exact h
        by_cases him : base + size / 2 ≤ i
        · exact ih (size - size / 2) (by omega) (base + size / 2) (by omega)
            (by omega) ⟨i, him, by omega, hix⟩
        · have hmx : el (base + size / 2) = x := by
            have h1 : el i ≤ el (base + size / 2) :=
              hsort i (base + size / 2) (by omega) (by omega)
            omega
          exact ih (size - size / 2) (by omega) (base + size / 2) (by omega)
            (by omega) ⟨base + size / 2, le_refl _, by omega, hmx⟩
    · next hs =>
      have : i = base := by omega
      subst this
      exact hix

/-! ### Slicing helpers -/

lemma trySlice_oob (data : List Nat) (start stop : Nat)
    (h : data.length < stop) :
    trySlice data start stop = .error .SliceOutOfBounds := by
  unfold trySlice
  rw [if_neg]
  omega

lemma trySlice_ok (data : List Nat) (start stop : Nat)
    (h1 : start ≤ stop) (h2 : stop ≤ data.length) :
    trySlice data start stop = .ok (slice data start stop) := by
  unfold trySlice
  rw [if_pos ⟨h1, h2⟩]

lemma trySlice_ok_inv {data : List Nat} {start stop : Nat} {bs : List Nat}
    (h : trySlice data start stop = .ok bs) :
    start ≤ stop ∧ stop ≤ data.length ∧ bs = slice data start stop := by
  unfold trySlice at h
  split at h
  · next hc => exact ⟨hc.1, hc.2, (Except.ok.inj h).symm⟩
  · cases h

lemma slice_length (data : List Nat) (start stop : Nat)
    (h1 : start ≤ stop) (h2 : stop ≤ data.length) :
    (slice data start stop).length = stop - start := by
  unfold slice
  rw [List.length_take, List.length_drop]
  omega

/-- A successful slice sits inside the buffer: the buffer is the part before
it, the slice, and the part after it. -/
lemma slice_split (data : List Nat) (start stop : Nat)
    (h1 : start ≤ stop) (h2 : stop ≤ data.length) :
    data = data.take start ++ slice data start stop ++ data.drop stop := by
  unfold slice
  conv_lhs => rw [← List.take_append_drop start data]
  rw [List.append_assoc]
  congr 1
  conv_lhs => rw [← List.take_append_drop (stop - start) (data.drop start)]
  congr 1
  rw [List.drop_drop]
  congr 1
  omega

/-- C1: a read through the bounds-checked reader (`Stream::read`,
`Stream::read_bytes`, `Stream::read_at`) whose byte span
`[offset, offset + width)` has end offset beyond the buffer length returns
`Error::SliceOutOfBounds` and produces no value; on success the cursor
advances by the width and the produced value/bytes come from the slice
`[offset, offset + width)`, which is fully contained in the buffer.
-/
theorem c1_bounds_checked_reads {α : Type} (fd : FromData α)
    (data : List Nat) (off n : Nat) :
    (data.length < off + fd.SIZE →
      Stream.read fd ⟨data, off⟩ = .error .SliceOutOfBounds ∧
      Stream.read_at fd data off = .error .SliceOutOfBounds) ∧
    (data.length < off + n →
      Stream.read_bytes ⟨data, off⟩ n = .error .SliceOutOfBounds) ∧
    (∀ v s', Stream.read fd ⟨data, off⟩ = .ok (v, s') →
      off + fd.SIZE ≤ data.length ∧
      v = fd.parse (slice data off (off + fd.SIZE)) ∧
      s' = ⟨data, off + fd.SIZE⟩) ∧
    (∀ bs s', Stream.read_bytes ⟨data, off⟩ n = .ok (bs, s') →
      off + n ≤ data.length ∧ bs = slice data off (off + n) ∧
      bs.length = n ∧
      data = data.take off ++ bs ++ data.drop (off + n) ∧
      s' = ⟨data, off + n⟩) ∧
    (∀ v, Stream.read_at fd data off = .ok v →
      off + fd.SIZE ≤ data.length ∧
      v = fd.parse (slice data off (off + fd.SIZE))) := by
  refine ⟨?_, ?_, ?_, ?_, ?_⟩
  · intro h
    constructor
    · unfold Stream.read
      rw [trySlice_oob data off (off + fd.SIZE) h]
    · unfold Stream.read_at
      rw [trySlice_oob data off (off + fd.SIZE) h]
  · intro h
    unfold Stream.read_bytes
    rw [trySlice_oob data off (off + n) h]
  · intro v s' hok
    unfold Stream.read at hok
    cases hts : trySlice data off (off + fd.SIZE) with
    | ok bs =>
      rw [hts] at hok
      obtain ⟨hb1, hb2, hb3⟩ := trySlice_ok_inv hts
      obtain ⟨hv, hs⟩ := Prod.mk.inj (Except.ok.inj hok)
      exact ⟨hb2, by rw [← hv, hb3], hs.symm⟩
    | error e =>
      rw [hts] at hok
      cases hok
  · intro bs s' hok
    unfold Stream.read_bytes at hok
    cases hts : trySlice data off (off + n) with
    | ok bs₀ =>
      rw [hts] at hok
      obtain ⟨hb1, hb2, hb3⟩ := trySlice_ok_inv hts
      obtain ⟨hv, hs⟩ := Prod.mk.inj (Except.ok.inj hok)
      subst hv
      refine ⟨hb2, hb3, ?_, ?_, hs.symm⟩
      · rw [hb3, slice_length data off (off + n) (by omega) hb2]
        omega
      · rw [hb3]
        exact slice_split data off (off + n) (by omega) hb2
    | error e =>
      rw [hts] at hok
      cases hok
  · intro v hok
    unfold Stream.read_at at hok
    cases hts : trySlice data off (off + fd.SIZE) with
    | ok bs =>
      rw [hts] at hok
      obtain ⟨hb1, hb2, hb3⟩ := trySlice_ok_inv hts
      exact ⟨hb2, by rw [← Except.ok.inj hok, hb3]⟩
    | error e =>
      rw [hts] at hok
      cases hok

/-- Witness for C1 at a concrete input: reading a `u16` from a one-byte
buffer is a boundary failure. -/
theorem c1_bounds_checked_reads_witness :
    Stream.read fdU16 ⟨[7], 0⟩ = .error .SliceOutOfBounds ∧
    Stream.read_at fdU16 [7] 0 = .error .SliceOutOfBounds :=
  (c1_bounds_checked_reads fdU16 [7] 0 2).1 (by decide)

/-- C2: for every lazy array view over fixed-width elements, `len` is the
integer quotient of the slice length by the element width, `get i` is
absent exactly when `i ≥ len`, and for `i < len`, `get i` returns the
value `at i` decodes.
-/
theorem c2_lazy_array_get {α : Type} (fd : FromData α) (la : LazyArray)
    (hw : 0 < fd.SIZE) :
    la.len fd = la.data.length / fd.SIZE ∧
    (∀ i, la.get fd i = none ↔ la.len fd ≤ i) ∧
    (∀ i, i < la.len fd → la.get fd i = some (la.at' fd i)) := by
  refine ⟨rfl, ?_, ?_⟩
  · intro i
    unfold LazyArray.get
    split
    · next h => simp; omega
    · next h => simp; omega
  · intro i hi
    unfold LazyArray.get LazyArray.at'
    rw [if_pos hi]

/-- Witness for C2 at a concrete input: a four-byte view of `u16`s has two
elements and `get 1` decodes the same bytes as `at 1`. -/
theorem c2_lazy_array_get_witness :
    (LazyArray.new [0, 2, 0, 9]).get fdU16 1 =
      some ((LazyArray.new [0, 2, 0, 9]).at' fdU16 1) :=
  (c2_lazy_array_get fdU16 (LazyArray.new [0, 2, 0, 9]) (by decide)).2.2 1 (by decide)

/-! ### Reaching the range-forming step of `Font::glyph_range` -/

lemma glyph_range_short (ng gid : Nat) (locaData : List Nat)
    (h1 : ng ≠ 65535) (h2 : gid ≠ 65535) (h3 : gid + 1 < ng + 1) :
    glyph_range ⟨ng, .ok (some .Short), .ok locaData⟩ gid =
      match Stream.read_array fdU16 (Stream.new locaData) (ng + 1) with
      | .error e => .error e
      | .ok (array, _) =>
          glyphRangeResult (array.at' fdU16 gid * 2)
            (array.at' fdU16 (gid + 1) * 2) := by
  unfold glyph_range
  rw [if_neg h1, if_neg h2, if_neg (by omega : ¬gid + 1 ≥ ng + 1)]

lemma glyph_range_long (ng gid : Nat) (locaData : List Nat)
    (h1 : ng ≠ 65535) (h2 : gid ≠ 65535) (h3 : gid + 1 < ng + 1) :
    glyph_range ⟨ng, .ok (some .Long), .ok locaData⟩ gid =
      match Stream.read_array fdU32 (Stream.new locaData) (ng + 1) with
      | .error e => .error e
      | .ok (array, _) =>
          glyphRangeResult (array.at' fdU32 gid)
            (array.at' fdU32 (gid + 1)) := by
  unfold glyph_range
  rw [if_neg h1, if_neg h2, if_neg (by omega : ¬gid + 1 ≥ ng + 1)]

/-- C4: `Font::glyph_range` returns `Ok(None)` (absence, not a failure) whenever
the glyph count is the ambiguous `0xFFFF` sentinel, the requested glyph id
is the reserved `0xFFFF` sentinel, or `glyph_id + 1 ≥ glyph_count + 1`
(out-of-range id).
-/
theorem c4_glyph_range_sentinels (font : Font) (glyphId : Nat)
    (hng : font.numberOfGlyphs < 65536) (hid : glyphId < 65536) :
    (font.numberOfGlyphs = 65535 → glyph_range font glyphId = .ok none) ∧
    (glyphId = 65535 → glyph_range font glyphId = .ok none) ∧
    (glyphId + 1 ≥ font.numberOfGlyphs + 1 →
      glyph_range font glyphId = .ok none) := by
  unfold glyph_range
  refine ⟨?_, ?_, ?_⟩
  · intro h
    rw [if_pos h]
  · intro h
    by_cases h1 : font.numberOfGlyphs = 65535
    · rw [if_pos h1]
    · rw [if_neg h1, if_pos h]
  · intro h
    by_cases h1 : font.numberOfGlyphs = 65535
    · rw [if_pos h1]
    · rw [if_neg h1]
      by_cases h2 : glyphId = 65535
      · rw [if_pos h2]
      · rw [if_neg h2, if_pos h]

/-- Witness for C4 at a concrete input: glyph id 3 is out of range for a
three-glyph font (`3 + 1 ≥ 3 + 1`). -/
theorem c4_glyph_range_sentinels_witness :
    glyph_range ⟨3, .ok (some .Short), .ok []⟩ 3 = .ok none :=
  (c4_glyph_range_sentinels ⟨3, .ok (some .Short), .ok []⟩ 3
    (by decide) (by decide)).2.2 (by decide)

/-- C5: under the short encoding, `glyph_range` forms the range from the
`glyph_id`-th and `(glyph_id + 1)`-th 16-bit offset-table entries, both
multiplied by two; on the worked example (`glyph_count = 3`, stored
pre-halved values `[0, 0, 5, 5]`) glyph 0 resolves to absent, glyph 1 to
the range `[0, 10)`, and glyph 2 to absent.
-/
theorem c5_glyph_range_short_encoding :
    (∀ ng gid locaData, ng ≠ 65535 → gid ≠ 65535 → gid + 1 < ng + 1 →
      glyph_range ⟨ng, .ok (some .Short), .ok locaData⟩ gid =
        match Stream.read_array fdU16 (Stream.new locaData) (ng + 1) with
        | .error e => .error e
        | .ok (array, _) =>
            glyphRangeResult (array.at' fdU16 gid * 2)
              (array.at' fdU16 (gid + 1) * 2)) ∧
    glyph_range locaShortExample 0 = .ok none ∧
    glyph_range locaShortExample 1 = .ok (some (0, 10)) ∧
    glyph_range locaShortExample 2 = .ok none :=
  ⟨glyph_range_short, rfl, rfl, rfl⟩

/-- Witness for C5 at a concrete input: the range-forming equation applied
to the worked example at glyph 1. -/
theorem c5_glyph_range_short_encoding_witness :
    glyph_range ⟨3, .ok (some .Short), .ok [0, 0, 0, 0, 0, 5, 0, 5]⟩ 1 =
      match Stream.read_array fdU16 (Stream.new [0, 0, 0, 0, 0, 5, 0, 5]) (3 + 1) with
      | .error e => .error e
      | .ok (array, _) =>
          glyphRangeResult (array.at' fdU16 1 * 2) (array.at' fdU16 (1 + 1) * 2) :=
  c5_glyph_range_short_encoding.1 3 1 [0, 0, 0, 0, 0, 5, 0, 5]
    (by decide) (by decide) (by decide)

/-- C6: a query that reaches the range-forming step of `glyph_range` yields
`Ok(Some ...)` exactly when `start < end`, and `Ok(None)` (never an error)
when `start = end` or `start > end`; reaching that step means the sentinel
and range checks passed, the format resolved, the `loca` slice was present
and the offset array was read successfully, in which case the result is
exactly the final range check applied to the two adjacent entries.
-/
theorem c6_range_forming_step :
    (∀ start stop : Nat,
      (stop ≤ start → glyphRangeResult start stop = .ok none) ∧
      (start < stop → glyphRangeResult start stop = .ok (some (start, stop))) ∧
      (∀ e, glyphRangeResult start stop ≠ .error e)) ∧
    (∀ ng gid locaData array s₂, ng ≠ 65535 → gid ≠ 65535 → gid + 1 < ng + 1 →
      Stream.read_array fdU16 (Stream.new locaData) (ng + 1) = .ok (array, s₂) →
      glyph_range ⟨ng, .ok (some .Short), .ok locaData⟩ gid =
        glyphRangeResult (array.at' fdU16 gid * 2) (array.at' fdU16 (gid + 1) * 2)) ∧
    (∀ ng gid locaData array s₂, ng ≠ 65535 → gid ≠ 65535 → gid + 1 < ng + 1 →
      Stream.read_array fdU32 (Stream.new locaData) (ng + 1) = .ok (array, s₂) →
      glyph_range ⟨ng, .ok (some .Long), .ok locaData⟩ gid =
        glyphRangeResult (array.at' fdU32 gid) (array.at' fdU32 (gid + 1))) := by
  refine ⟨?_, ?_, ?_⟩
  · intro start stop
    unfold glyphRangeResult
    refine ⟨?_, ?_, ?_⟩
    · intro h
      by_cases he : start = stop
      · rw [if_pos he]
      · rw [if_neg he, if_pos (by omega : start > stop)]
    · intro h
      rw [if_neg (by omega : ¬start = stop), if_neg (by omega : ¬start > stop)]
    · intro e
      by_cases he : start = stop
      · rw [if_pos he]
        simp
      · by_cases hg : start > stop
        · rw [if_neg he, if_pos hg]
          simp
        · rw [if_neg he, if_neg hg]
          simp
  · intro ng gid locaData array s₂ h1 h2 h3 harr
    rw [glyph_range_short ng gid locaData h1 h2 h3, harr]
  · intro ng gid locaData array s₂ h1 h2 h3 harr
    rw [glyph_range_long ng gid locaData h1 h2 h3, harr]

/-- Witness for C6 at a concrete input: an equal-start-end range (glyph 0 of
the worked example) is `Ok(None)`, and a proper range yields `Ok(Some ...)`. -/
theorem c6_range_forming_step_witness :
    glyphRangeResult 10 10 = .ok none ∧
    glyphRangeResult 0 10 = .ok (some (0, 10)) :=
  ⟨(c6_range_forming_step.1 10 10).1 (by decide),
   (c6_range_forming_step.1 0 10).2.1 (by decide)⟩

/-- C7 (amended): `Stream::read_array(count)` either returns a lazy array view
spanning exactly the next `(count * T::SIZE) mod 2^32` bytes of the buffer
(the byte count is truncated to 32 bits by an `as u32` cast before slicing)
while advancing the cursor by that amount, or returns a boundary failure;
`read_array16`/`read_array32` first read the count as a leading big-endian
`u16`/`u32` and then behave the same way on the array body.
-/
theorem c7_read_array {α : Type} (fd : FromData α) (data : List Nat)
    (off count : Nat) :
    (∀ arr s', Stream.read_array fd ⟨data, off⟩ count = .ok (arr, s') →
      arr.data = slice data off (off + count * fd.SIZE % U32LIM) ∧
      arr.data.length = count * fd.SIZE % U32LIM ∧
      off + count * fd.SIZE % U32LIM ≤ data.length ∧
      s' = ⟨data, off + count * fd.SIZE % U32LIM⟩) ∧
    (data.length < off + count * fd.SIZE % U32LIM →
      Stream.read_array fd ⟨data, off⟩ count = .error .SliceOutOfBounds) ∧
    (Stream.read_array16 fd ⟨data, off⟩ =
      match Stream.read fdU16 ⟨data, off⟩ with
      | .ok (c, s') => Stream.read_array fd s' c
      | .error e => .error e) ∧
    (Stream.read_array32 fd ⟨data, off⟩ =
      match Stream.read fdU32 ⟨data, off⟩ with
      | .ok (c, s') => Stream.read_array fd s' c
      | .error e => .error e) := by
  refine ⟨?_, ?_, rfl, rfl⟩
  · intro arr s' hok
    unfold Stream.read_array Stream.read_bytes at hok
    cases hts : trySlice data off (off + count * fd.SIZE % U32LIM) with
    | ok bs =>
      rw [hts] at hok
      obtain ⟨hb1, hb2, hb3⟩ := trySlice_ok_inv hts
      obtain ⟨ha, hs⟩ := Prod.mk.inj (Except.ok.inj hok)
      refine ⟨?_, ?_, hb2, hs.symm⟩
      · rw [← ha]
        exact hb3
      · rw [← ha, hb3]
        show (slice data off (off + count * fd.SIZE % U32LIM)).length = _
        rw [slice_length data off _ (by omega) hb2]
        omega
    | error e =>
      rw [hts] at hok
      cases hok
  · intro h
    unfold Stream.read_array Stream.read_bytes
    rw [trySlice_oob data off (off + count * fd.SIZE % U32LIM) h]

/-- Counterexample to C7 as stated: with element type `u32` and
`count = 2^30`, the requested span is `2^30 * 4 = 2^32` bytes, yet on an
empty buffer the read succeeds (the `as u32` cast truncates the byte count
to zero) and returns an empty view instead of a boundary failure. -/
theorem c7_read_array_counterexample :
    Stream.read_array fdU32 (Stream.new []) 1073741824 =
      .ok (LazyArray.new [], Stream.new []) ∧
    1073741824 * fdU32.SIZE = 4294967296 ∧
    (Stream.new ([] : List Nat)).data.length = 0 :=
  ⟨rfl, rfl, rfl⟩

/-- Witness for C7 at a concrete input: reading four `u16`s from an 8-byte
buffer consumes exactly the 8 bytes. -/
theorem c7_read_array_witness :
    (LazyArray.new [0, 0, 0, 0, 0, 5, 0, 5]).data =
      slice [0, 0, 0, 0, 0, 5, 0, 5] 0 (0 + 4 * fdU16.SIZE % U32LIM) ∧
    (LazyArray.new [0, 0, 0, 0, 0, 5, 0, 5]).data.length = 4 * fdU16.SIZE % U32LIM ∧
    0 + 4 * fdU16.SIZE % U32LIM ≤ ([0, 0, 0, 0, 0, 5, 0, 5] : List Nat).length ∧
    (⟨[0, 0, 0, 0, 0, 5, 0, 5], 8⟩ : Stream) = ⟨[0, 0, 0, 0, 0, 5, 0, 5], 0 + 4 * fdU16.SIZE % U32LIM⟩ :=
  (c7_read_array fdU16 [0, 0, 0, 0, 0, 5, 0, 5] 0 4).1
    (LazyArray.new [0, 0, 0, 0, 0, 5, 0, 5]) ⟨[0, 0, 0, 0, 0, 5, 0, 5], 8⟩ rfl

/-- C8: `binary_search_by` terminates on every lazy array view — the loop is a
total function because the half-open span strictly shrinks
(`bsearchLoop`/`bsearchProbes` satisfy the loop recurrence with
`size - size / 2 < size`) — a zero-length view returns absent immediately,
and every index the search probes via `at` (the probed midpoints and the
final candidate) is strictly less than the view's logical length.
-/
theorem c8_binary_search_in_bounds {α : Type} (fd : FromData α)
    (la : LazyArray) (f : α → Ordering) :
    (la.len fd = 0 → la.binary_search_by fd f = none) ∧
    (∀ m ∈ bsearchProbes (fun m => f (la.at' fd m)) 0 (la.len fd % U32LIM),
      m < la.len fd) ∧
    (la.len fd % U32LIM ≠ 0 →
      bsearchLoop (fun m => f (la.at' fd m)) 0 (la.len fd % U32LIM) < la.len fd) := by
  refine ⟨?_, ?_, ?_⟩
  · intro h
    simp [LazyArray.binary_search_by, h]
  · intro m hm
    have h1 := bsearchProbes_lt (fun m => f (la.at' fd m)) (la.len fd % U32LIM) 0 m hm
    have h2 : la.len fd % U32LIM ≤ la.len fd := Nat.mod_le _ _
    omega
  · intro h
    have h1 := bsearchLoop_mem (fun m => f (la.at' fd m)) (la.len fd % U32LIM) 0
      (by omega)
    have h2 : la.len fd % U32LIM ≤ la.len fd := Nat.mod_le _ _
    omega

/-- Witness for C8 at a concrete input: the empty view returns absent. -/
theorem c8_binary_search_in_bounds_witness :
    LazyArray.binary_search_by fdU16 (LazyArray.new []) (fun _ => Ordering.eq) = none :=
  (c8_binary_search_in_bounds fdU16 (LazyArray.new []) (fun _ => Ordering.eq)).1 rfl

/-- C3 (amended): for every lazy array view with fewer than `2^32` elements
(the source truncates the element count with an `as u32` cast) whose
elements are sorted ascending, `binary_search(x)` returns a value equal to
`x` when some element equals `x` and absent when none does; concretely, on
the view `[2, 4, 4, 7]` searching 4 returns 4 and searching 5 returns
absent, and on an empty view every search returns absent.
-/
theorem c3_binary_search_sorted :
    (∀ (fd : FromData Nat) (la : LazyArray) (x : Nat),
      la.len fd < U32LIM →
      (∀ i j, i ≤ j → j < la.len fd → la.at' fd i ≤ la.at' fd j) →
      ((∃ i, i < la.len fd ∧ la.at' fd i = x) → la.binary_search fd x = some x) ∧
      ((∀ i, i < la.len fd → la.at' fd i ≠ x) → la.binary_search fd x = none)) ∧
    LazyArray.binary_search fdU16 (LazyArray.new [0, 2, 0, 4, 0, 4, 0, 7]) 4 = some 4 ∧
    LazyArray.binary_search fdU16 (LazyArray.new [0, 2, 0, 4, 0, 4, 0, 7]) 5 = none ∧
    (∀ x, LazyArray.binary_search fdU16 (LazyArray.new []) x = none) := by
  refine ⟨?_, by decide, by decide, fun x => rfl⟩
  intro fd la x hlen hsort
  have hmod : la.len fd % U32LIM = la.len fd := Nat.mod_eq_of_lt hlen
  constructor
  · rintro ⟨i, hi, hix⟩
    have hpos : 0 < la.len fd := by omega
    have hfind := bsearchLoop_find (la.at' fd) x (la.len fd) hsort (la.len fd) 0
      hpos (by omega) ⟨i, by omega, by omega, hix⟩
    unfold LazyArray.binary_search LazyArray.binary_search_by
    simp only [hmod]
    rw [if_neg (by omega : ¬la.len fd = 0), hfind]
    simp [Nat.compare_eq_eq]
  · intro habs
    by_cases h0 : la.len fd = 0
    · simp [LazyArray.binary_search, LazyArray.binary_search_by, h0]
    · have hb := bsearchLoop_mem (fun m => compare (la.at' fd m) x) (la.len fd) 0
        (by omega)
      have hne := habs (bsearchLoop (fun m => compare (la.at' fd m) x) 0 (la.len fd))
        (by omega)
      unfold LazyArray.binary_search LazyArray.binary_search_by
      simp only [hmod]
      rw [if_neg h0, if_neg (fun hc => hne (Nat.compare_eq_eq.mp hc))]

/-- Witness for C3 at a concrete input: a one-element sorted view contains
its element, and searching it finds it. -/
theorem c3_binary_search_sorted_witness :
    LazyArray.binary_search fdU16 (LazyArray.new [0, 2]) 2 = some 2 :=
  ((c3_binary_search_sorted.1 fdU16 (LazyArray.new [0, 2]) 2 (by decide)
    (fun i j hij hj => by
      rw [show (LazyArray.new [0, 2]).len fdU16 = 1 from rfl] at hj
      have hi0 : i = 0 := by omega
      have hj0 : j = 0 := by omega
      rw [hi0, hj0])).1)
    ⟨0, by decide, by decide⟩

/-- A one-byte slice at a valid index is the singleton of that element. -/
lemma slice_one (l : List Nat) : ∀ i, i < l.length → slice l i (i + 1) = [l.getD i 0] := by
  induction l with
  | nil =>
    intro i h
    simp at h
  | cons a t ih =>
    intro i h
    cases i with
    | zero => simp [slice]
    | succ j =>
      have hj : j < t.length := by
        simp at h
        omega
      have := ih j hj
      unfold slice at this ⊢
      simpa [Nat.succ_sub_succ] using this

lemma bigSorted_data : bigSorted.data = List.replicate 4294967296 0 ++ [1] := rfl

lemma bigSorted_len : bigSorted.len fdU8 = 4294967297 := by
  rw [LazyArray.len, bigSorted_data, List.length_append, List.length_replicate]
  norm_num [fdU8]

lemma bigSorted_at (i : Nat) (h : i ≤ 4294967296) :
    bigSorted.at' fdU8 i = if i < 4294967296 then 0 else 1 := by
  have hlen : (List.replicate 4294967296 0 ++ [1] : List Nat).length = 4294967297 := by
    rw [List.length_append, List.length_replicate]
    norm_num
  have hform : bigSorted.at' fdU8 i =
      (slice bigSorted.data (i * 1) (i * 1 + 1)).getD 0 0 := rfl
  rw [hform, bigSorted_data]
  simp only [Nat.mul_one]
  rw [slice_one _ i (by omega)]
  simp only [List.getD_cons_zero]
  by_cases hc : i < 4294967296
  · rw [if_pos hc,
      List.getD_append _ _ _ _ (by rw [List.length_replicate]; omega),
      List.getD_eq_getElem _ _ (by rw [List.length_replicate]; omega)]
    exact List.getElem_replicate _ (by rw [List.length_replicate]; omega)
  · rw [if_neg hc]
    have hi : i = 4294967296 := by omega
    subst hi
    rw [List.getD_append_right _ _ _ _ (List.length_replicate 4294967296 0).le,
      List.length_replicate]
    norm_num

/-- Counterexample to C3 as stated: `binary_search_by` initialises its span
with `self.len() as u32`, so on a sorted `u8` view of `2^32 + 1` elements
(`2^32` zeros then a one) the search covers only the first
`(2^32 + 1) mod 2^32 = 1` element; the value 1 is present yet searching for
it returns absent. -/
theorem c3_counterexample_len_truncation :
    (∀ i j, i ≤ j → j < bigSorted.len fdU8 →
      bigSorted.at' fdU8 i ≤ bigSorted.at' fdU8 j) ∧
    (∃ i, i < bigSorted.len fdU8 ∧ bigSorted.at' fdU8 i = 1) ∧
    bigSorted.binary_search fdU8 1 = none := by
  refine ⟨?_, ?_, ?_⟩
  · intro i j hij hj
    rw [bigSorted_len] at hj
    rw [bigSorted_at i (by omega), bigSorted_at j (by omega)]
    split_ifs <;> omega
  · refine ⟨4294967296, ?_, ?_⟩
    · rw [bigSorted_len]
      omega
    · rw [bigSorted_at _ (le_refl _)]
      norm_num
  · have h0 : bigSorted.at' fdU8 0 = 0 := by
      rw [bigSorted_at 0 (by omega)]
      norm_num
    have hloop : bsearchLoop (fun m => compare (bigSorted.at' fdU8 m) 1) 0 1 = 0 := by
      rw [bsearchLoop_eq]
      norm_num
    have hmod : bigSorted.len fdU8 % U32LIM = 1 := by
      rw [bigSorted_len]
      norm_num [U32LIM]
    unfold LazyArray.binary_search LazyArray.binary_search_by
    simp only [hmod]
    rw [if_neg (by norm_num : ¬(1 : Nat) = 0), hloop, h0]
    decide

/-- C9: decoding an `F2DOT14` from any 2-byte slice interprets the bytes as a
big-endian two's-complement 16-bit integer divided by 16384, and decoding a
`Fixed` from any 4-byte slice interprets them as a big-endian
two's-complement 32-bit integer divided by 65536 (the decoded value is the
unique integer in the signed range congruent to the big-endian word,
scaled). -/
theorem c9_fixed_point_decoding (b0 b1 b2 b3 : Nat) (h0 : b0 < 256)
    (h1 : b1 < 256) (h2 : b2 < 256) (h3 : b3 < 256) :
    (fdF2DOT14.SIZE = 2 ∧ ∃ i : Int,
      fdF2DOT14.parse [b0, b1] = (i : ℚ) / 16384 ∧
      -(2 ^ 15) ≤ i ∧ i < 2 ^ 15 ∧
      i % 2 ^ 16 = ((b0 * 256 + b1 : Nat) : Int) % 2 ^ 16) ∧
    (fdFixed.SIZE = 4 ∧ ∃ i : Int,
      fdFixed.parse [b0, b1, b2, b3] = (i : ℚ) / 65536 ∧
      -(2 ^ 31) ≤ i ∧ i < 2 ^ 31 ∧
      i % 2 ^ 32 = ((((b0 * 256 + b1) * 256 + b2) * 256 + b3 : Nat) : Int) % 2 ^ 32) := by
  have hbe2 : be16 [b0, b1] = b0 * 256 + b1 := by
    simp [be16]
  have hbe4 : be32 [b0, b1, b2, b3] = ((b0 * 256 + b1) * 256 + b2) * 256 + b3 := by
    simp [be32]
  constructor
  · refine ⟨rfl, toSigned 16 (be16 [b0, b1]), rfl, ?_⟩
    unfold toSigned
    rw [hbe2]
    split <;> refine ⟨by omega, by omega, by omega⟩
  · refine ⟨rfl, toSigned 32 (be32 [b0, b1, b2, b3]), rfl, ?_⟩
    unfold toSigned
    rw [hbe4]
    split <;> refine ⟨by omega, by omega, by omega⟩

/-- Witness for C9 at a concrete input: `0x8000` decodes to `-2` as an
`F2DOT14` (via `i = -32768`) and `0xFFFF0000` decodes to `-65536 / 65536`
as a `Fixed`. -/
theorem c9_fixed_point_decoding_witness :
    (fdF2DOT14.SIZE = 2 ∧ ∃ i : Int,
      fdF2DOT14.parse [128, 0] = (i : ℚ) / 16384 ∧
      -(2 ^ 15) ≤ i ∧ i < 2 ^ 15 ∧
      i % 2 ^ 16 = ((128 * 256 + 0 : Nat) : Int) % 2 ^ 16) ∧
    (fdFixed.SIZE = 4 ∧ ∃ i : Int,
      fdFixed.parse [128, 0, 255, 255] = (i : ℚ) / 65536 ∧
      -(2 ^ 31) ≤ i ∧ i < 2 ^ 31 ∧
      i % 2 ^ 32 = ((((128 * 256 + 0) * 256 + 255) * 256 + 255 : Nat) : Int) % 2 ^ 32) :=
  c9_fixed_point_decoding 128 0 255 255 (by decide) (by decide) (by decide) (by decide)

/-- C10: whenever `offset + T::SIZE ≤ buffer length`, the trusted reader's
`SafeStream::read::<T>` returns exactly the value the bounds-checked
`Stream::read::<T>` returns from the same position (which succeeds under
that precondition), and both leave the cursor at `offset + T::SIZE`. -/
theorem c10_safe_stream_refines {α : Type} (fd : FromData α) (data : List Nat)
    (off : Nat) (hsz : fd.SIZE < U32LIM) (hb : off + fd.SIZE ≤ data.length) :
    ∃ v : α,
      Stream.read fd ⟨data, off⟩ = .ok (v, ⟨data, off + fd.SIZE⟩) ∧
      SafeStream.read fd ⟨data, off⟩ = (v, ⟨data, off + fd.SIZE⟩) := by
  refine ⟨fd.parse (slice data off (off + fd.SIZE)), ?_, ?_⟩
  · unfold Stream.read
    rw [trySlice_ok data off (off + fd.SIZE) (by omega) hb]
  · unfold SafeStream.read SafeStream.read_bytes
    rw [Nat.mod_eq_of_lt hsz]

/-- Witness for C10 at a concrete input: `u16` at offset 1 of a three-byte
buffer decodes to the same value with the same final cursor through both
readers. -/
theorem c10_safe_stream_refines_witness :
    ∃ v : Nat,
      Stream.read fdU16 ⟨[9, 1, 2], 1⟩ = .ok (v, ⟨[9, 1, 2], 1 + fdU16.SIZE⟩) ∧
      SafeStream.read fdU16 ⟨[9, 1, 2], 1⟩ = (v, ⟨[9, 1, 2], 1 + fdU16.SIZE⟩) :=
  c10_safe_stream_refines fdU16 [9, 1, 2] 1 (by decide) (by decide)

end TtfParser
